import Mathlib

/-!
Shallow embedding of the NahFS block core:
  * datanode side (src/impl/datanode/src/block/mod.rs): index_block,
    write_block, transfer_block, read_indexed_block;
  * namenode side (src/impl/namenode/src/protocol/mod.rs):
    validate_block_ids, to_located_blocks_proto.

Bytes are modelled as List Nat.  Machine integers are Nat with explicit
mod-2^w reductions at the points where the Rust code narrows (the u32
casts of write_block, the wrapping u32 sum of validate_block_ids).
Rust panics and propagated I/O errors are modelled as Option.none on the
operations where they can occur.  External collaborators that live
outside src/ (the float/geohash parsing inside parse_metadata, the
spatial index's query method, shared::geohash_char_to_value) enter as
explicit function parameters; the shared block-id codec, also outside
src/, is modelled from the spec (see encodeBlockId below).
-/

/-- u64::MAX, the initial min_timestamp of index_block. -/
def u64Max : Nat := 2 ^ 64 - 1

/-- Rust slice expression data[s..e]; callers are in bounds (s <= e <= len)
wherever this is used without an explicit bounds gate. -/
def sliceRange (data : List Nat) (s e : Nat) : List Nat :=
  (data.take e).drop s

/-- BlockOperation (datanode/src/block/mod.rs).  The operation kind and the
replica descriptors do not influence the functions modelled here beyond the
fan-out of transfer_block, which receives the network behaviour separately. -/
structure BlockOperation where
  blockId : Nat
  data : List Nat
  timestamps : Option (Nat × Nat)
  index : Option (List (String × List (Nat × Nat)))

/-! ## index_block -/

/-- The record-parsing oracle standing for parse_metadata's dependence on
f32/u64 parsing and geohash::encode_16 (both external to src/).  Arguments
are the observation slice and the relative comma offsets.
`none` models a panic inside parse_metadata (its unchecked commas[0..3]
accesses and the commas[2]+1..commas[3]-2 slice), `some none` a returned
Err (logged and skipped by index_block), `some (some (gh, ts))` success. -/
def ParseOracle : Type := List Nat → List Nat → Option (Option (String × Nat))

/-- The inner scan loop of index_block: starting just after startIdx, walk
until the byte before the end or a NEWLINE (10), recording relative comma
(44) offsets.  Structural fuel replaces the while loop; every use supplies
data.length + 1, strictly more than the possible iterations. -/
def innerGo (data : List Nat) (startIdx : Nat) :
    Nat → Nat → List Nat → Nat × List Nat
  | 0, endIdx, delims => (endIdx, delims)
  | fuel + 1, endIdx, delims =>
    if endIdx < data.length - 1 then
      let e := endIdx + 1
      if data.getD e 0 = 10 then (e, delims)
      else if data.getD e 0 = 44 then
        innerGo data startIdx fuel e (delims ++ [e - startIdx])
      else innerGo data startIdx fuel e delims
    else (endIdx, delims)

/-- One observation-boundary computation of index_block (inner while loop
started with a cleared delimiter vector at endIdx = startIdx). -/
def innerLoop (data : List Nat) (startIdx : Nat) : Nat × List Nat :=
  innerGo data startIdx (data.length + 1) startIdx []

/-- End of the observation: if the byte under the final index is a NEWLINE
the index is incremented past it. -/
def obsEnd (data : List Nat) (e1 : Nat) : Nat :=
  if data.getD e1 0 = 10 then e1 + 1 else e1

/-- The scanned record list of index_block's outer loop: triples of
(start index, end index, relative comma offsets). -/
def scanGo (data : List Nat) : Nat → Nat → List (Nat × Nat × List Nat)
  | 0, _ => []
  | fuel + 1, endIdx =>
    if endIdx < data.length - 1 then
      let p := innerLoop data endIdx
      let e2 := obsEnd data p.1
      (endIdx, e2, p.2) :: scanGo data fuel e2
    else []

/-- All records scanned by index_block over the raw payload. -/
def scanRecords (data : List Nat) : List (Nat × Nat × List Nat) :=
  scanGo data (data.length + 1) 0

/-- BTreeMap::entry(geohash).or_insert(Vec::new()).push(range): insert the
range at the key, keeping keys sorted and ranges in insertion order. -/
def insertRange (idx : List (String × List (Nat × Nat))) (g : String)
    (r : Nat × Nat) : List (String × List (Nat × Nat)) :=
  match idx with
  | [] => [(g, [r])]
  | (k, rs) :: t =>
    if g = k then (k, rs ++ [r]) :: t
    else if g < k then (g, [r]) :: (k, rs) :: t
    else (k, rs) :: insertRange t g r

/-- The mutable locals of index_block's outer loop. -/
structure IndexState where
  fc : Nat
  idx : List (String × List (Nat × Nat))
  minT : Nat
  maxT : Nat

/-- Processing of one scanned record by index_block: the header record
(feature_count == 0 and start_index == 0) is skipped; the first other record
establishes feature_count; records whose delimiter count differs from an
established feature_count are skipped; otherwise parse_metadata runs and a
success is indexed and folded into the running min/max timestamps. -/
def processRec (parse : ParseOracle) (data : List Nat) (st : IndexState)
    (rec : Nat × Nat × List Nat) : Option IndexState :=
  let s := rec.1
  let e2 := rec.2.1
  let d := rec.2.2
  if st.fc = 0 ∧ s = 0 then some st
  else
    let fc2 := if st.fc = 0 then d.length + 1 else st.fc
    if st.fc ≠ 0 ∧ d.length + 1 ≠ st.fc then some st
    else
      match parse (sliceRange data s e2) d with
      | none => none
      | some none => some { st with fc := fc2 }
      | some (some (gh, ts)) =>
        some { fc := fc2, idx := insertRange st.idx gh (s, e2),
               minT := min st.minT ts, maxT := max st.maxT ts }

/-- Folding processRec over a record list (none = a panic aborted the loop). -/
def processRecsGo (parse : ParseOracle) (data : List Nat) :
    IndexState → List (Nat × Nat × List Nat) → Option IndexState
  | st, [] => some st
  | st, r :: t =>
    match processRec parse data st r with
    | none => none
    | some st2 => processRecsGo parse data st2 t

/-- index_block's outer loop, fused scan-and-process form mirroring the
source; fuel as in scanGo. -/
def outerGo (parse : ParseOracle) (data : List Nat) :
    Nat → Nat → IndexState → Option IndexState
  | 0, _, st => some st
  | fuel + 1, endIdx, st =>
    if endIdx < data.length - 1 then
      let p := innerLoop data endIdx
      let e2 := obsEnd data p.1
      match processRec parse data st (endIdx, e2, p.2) with
      | none => none
      | some st2 => outerGo parse data fuel e2 st2
    else some st

/-- index_block.  On an empty payload the loop bound data.len() - 1
underflows on usize: a debug build panics on the subtraction, a release
build wraps to usize::MAX and the first data[end_index] access panics out
of bounds; either way the call panics, modelled as none.  Otherwise the
scan runs and the resulting geohash index and (min, max) timestamp pair
are stored into the BlockOperation (returned here). -/
def indexBlock (parse : ParseOracle) (data : List Nat) :
    Option (List (String × List (Nat × Nat)) × (Nat × Nat)) :=
  if data.length = 0 then none
  else
    (outerGo parse data (data.length + 1) 0
        { fc := 0, idx := [], minT := u64Max, maxT := 0 }).map
      fun st => (st.idx, (st.minT, st.maxT))

/-- All byte ranges stored in a geohash index. -/
def idxRanges (idx : List (String × List (Nat × Nat))) : List (Nat × Nat) :=
  idx.flatMap Prod.snd

/-! ## write_block -/

/-- The persisted BlockIndexProto. -/
structure BlockIndexProtoM where
  geohashes : List String
  startIndices : List Nat
  endIndices : List Nat
  startTimestamp : Nat
  endTimestamp : Nat

/-- The persisted BlockMetadataProto. -/
structure BlockMetadataProtoM where
  blockId : Nat
  length : Nat
  index : Option BlockIndexProtoM

/-- The per-geohash inner loop of write_block: write data[s..e] for each
range (a slice with s > e or e > len panics, modelled none) and advance
current_index by e - s on usize (mod 2^64).  Returns the written bytes and
the advanced current_index. -/
def writeRangesGo (data : List Nat) :
    Nat → List (Nat × Nat) → Option (List Nat × Nat)
  | cur, [] => some ([], cur)
  | cur, r :: t =>
    if r.1 ≤ r.2 ∧ r.2 ≤ data.length then
      (writeRangesGo data ((cur + (r.2 - r.1)) % 2 ^ 64) t).map
        fun p => (sliceRange data r.1 r.2 ++ p.1, p.2)
    else none

/-- The indexed branch of write_block: per sorted geohash, push the geohash,
push current_index as u32 into start_indices, write the ranges, push the
advanced current_index as u32 into end_indices.  Returns written bytes,
the three parallel arrays and the final current_index. -/
def wbGo (data : List Nat) :
    Nat → List (String × List (Nat × Nat)) →
    Option (List Nat × List String × List Nat × List Nat × Nat)
  | cur, [] => some ([], [], [], [], cur)
  | cur, (g, rs) :: t =>
    match writeRangesGo data cur rs with
    | none => none
    | some (bs, cur2) =>
      match wbGo data cur2 t with
      | none => none
      | some (bs2, gs, ss, es, fin) =>
        some (bs ++ bs2, g :: gs, cur % 2 ^ 32 :: ss,
              cur2 % 2 ^ 32 :: es, fin)

/-- write_block: with an index and timestamps present the data file is the
code-sorted, insertion-ordered regrouping of the payload and the metadata
carries the offset arrays, timestamps and length = current_index; otherwise
the payload is written verbatim and length = data.len().  Result is
(data-file bytes, metadata record); none models a slice panic. -/
def writeBlockM (op : BlockOperation) : Option (List Nat × BlockMetadataProtoM) :=
  match op.index, op.timestamps with
  | some idx, some ts =>
    (wbGo op.data 0 idx).map fun r =>
      (r.1, { blockId := op.blockId, length := r.2.2.2.2,
              index := some { geohashes := r.2.1, startIndices := r.2.2.1,
                              endIndices := r.2.2.2.1,
                              startTimestamp := ts.1,
                              endTimestamp := ts.2 } })
  | _, _ =>
    some (op.data, { blockId := op.blockId, length := op.data.length,
                     index := none })

/-! ## transfer_block -/

/-- The per-range slice writes of transfer_block's indexed branch. -/
def transferRangesGo (data : List Nat) :
    List (Nat × Nat) → Option (List Nat)
  | [] => some []
  | r :: t =>
    if r.1 ≤ r.2 ∧ r.2 ≤ data.length then
      (transferRangesGo data t).map fun bs => sliceRange data r.1 r.2 ++ bs
    else none

/-- transfer_block's indexed payload: ranges grouped per sorted geohash. -/
def transferIdxGo (data : List Nat) :
    List (String × List (Nat × Nat)) → Option (List Nat)
  | [] => some []
  | (_, rs) :: t =>
    match transferRangesGo data rs with
    | none => none
    | some bs => (transferIdxGo data t).map fun bs2 => bs ++ bs2

/-- The payload bytes transfer_block writes after the metadata record:
reordered by the index when index and timestamps are both present,
verbatim otherwise. -/
def transferPayloadM (op : BlockOperation) : Option (List Nat) :=
  match op.index, op.timestamps with
  | some idx, some _ => transferIdxGo op.data idx
  | _, _ => some op.data

/-- Network behaviour of one replica endpoint: the connect fails, or the
connect succeeds and some later write on the stream fails, or everything
succeeds. -/
inductive ReplicaNet where
  | noConnect
  | writeFail
  | ok
deriving DecidableEq, Repr

/-- What a replica observed from transfer_block. -/
inductive Attempt where
  | connectFailed
  | delivered (bytes : List Nat)
  | writeAborted
deriving DecidableEq, Repr

/-- transfer_block's replica loop over the full wire bytes (version tag,
op tag, length-delimited metadata, payload).  A failed connect is caught
by the match and only logged, and the loop continues; a failed write
inside the Ok arm escapes through the ? operator, so the function returns
Err at once and the remaining replicas are never attempted.  Returns the
per-replica attempts that actually happened and the overall result. -/
def tbGo (wire : List Nat) : List ReplicaNet → List Attempt × Option Unit
  | [] => ([], some ())
  | ReplicaNet.noConnect :: t =>
    let p := tbGo wire t
    (Attempt.connectFailed :: p.1, p.2)
  | ReplicaNet.writeFail :: _ => ([Attempt.writeAborted], none)
  | ReplicaNet.ok :: t =>
    let p := tbGo wire t
    (Attempt.delivered wire :: p.1, p.2)

/-- The wire bytes transfer_block sends to a connected replica: u16 version
28 big-endian, op byte 82, the length-delimited metadata encoding (opaque
prost output, a parameter here), then the payload. -/
def wireBytes (metaBytes : List Nat) (payload : List Nat) : List Nat :=
  [0, 28, 82] ++ metaBytes ++ payload

/-! ## read_indexed_block -/

/-- The skip-or-copy while loop of read_indexed_block over one matched
range [s, e): while s < e, either consume up to remaining_offset bytes of
the range without copying, or seek and read_exact the rest of the range
into the destination buffer.  A read past the end of the data file is a
read_exact Err propagated by ?, a destination slice past the buffer length
is a panic; both are none.  Fuel e - s + 1 strictly exceeds the possible
iterations.  Returns (copied bytes so far, buf_index, remaining_offset). -/
def prGo (fileData : List Nat) (bufLen : Nat) :
    Nat → Nat → Nat → Nat → Nat → List Nat → Option (List Nat × Nat × Nat)
  | 0, _, _, ro, bi, acc => some (acc, bi, ro)
  | fuel + 1, s, e, ro, bi, acc =>
    if s < e then
      let len := e - s
      if ro > 0 then
        let bc := min ro len
        prGo fileData bufLen fuel (s + bc) e (ro - bc) bi acc
      else
        if e ≤ fileData.length ∧ bi + len ≤ bufLen then
          prGo fileData bufLen fuel e e ro (bi + len)
            (acc ++ sliceRange fileData s e)
        else none
    else some (acc, bi, ro)

/-- One matched range of read_indexed_block. -/
def processRange (fileData : List Nat) (bufLen : Nat) (s e ro bi : Nat)
    (acc : List Nat) : Option (List Nat × Nat × Nat) :=
  prGo fileData bufLen (e - s + 1) s e ro bi acc

/-- The last character of a geohash string, or the placeholder the source
substitutes when pop() finds the string empty. -/
def lastCharOrX (s : String) : Char :=
  s.toList.getLast?.getD 'x'

/-- The per-geohash loop of read_indexed_block.  The three metadata arrays
are consumed in lockstep with the absolute index i of the source; a geohash
whose character value cannot be parsed is logged and skipped, a geohash
whose value is outside the acceptable set is skipped, and only a matched
geohash touches start_indices[i] / end_indices[i] (an access past their
length is the source's index-out-of-bounds panic, none here). -/
def riGo (charToValue : Char → Option Nat) (fileData : List Nat)
    (bufLen : Nat) (accept : List Nat) :
    List String → List Nat → List Nat → Nat → Nat → List Nat →
    Option (List Nat)
  | [], _, _, _, _, acc => some acc
  | g :: gt, ss, es, ro, bi, acc =>
    match charToValue (lastCharOrX g) with
    | none => riGo charToValue fileData bufLen accept gt ss.tail es.tail ro bi acc
    | some key =>
      if key ∈ accept then
        match ss.head?, es.head? with
        | some s, some e =>
          match processRange fileData bufLen s e ro bi acc with
          | none => none
          | some (acc2, bi2, ro2) =>
            riGo charToValue fileData bufLen accept gt ss.tail es.tail ro2 bi2 acc2
        | _, _ => none
      else riGo charToValue fileData bufLen accept gt ss.tail es.tail ro bi acc

/-- read_indexed_block, after the metadata file has been decoded into
meta and the data file read as fileData: iterate the stored geohashes in
metadata order, copying the matched ranges past the logical offset into a
destination buffer of length bufLen.  Returns the copied bytes.
charToValue stands for shared::geohash_char_to_value (outside src/). -/
def readIndexedBlock (charToValue : Char → Option Nat) (fileData : List Nat)
    (meta : BlockMetadataProtoM) (accept : List Nat) (offset : Nat)
    (bufLen : Nat) : Option (List Nat) :=
  match meta.index with
  | none => some []
  | some bi =>
    riGo charToValue fileData bufLen accept bi.geohashes bi.startIndices
      bi.endIndices offset 0 []

/-- Whether an indexed code (zipped with its start/end offsets) is matched
by the acceptable value set: its last character parses and the value lies
in the set. -/
def keepCode (charToValue : Char → Option Nat) (accept : List Nat)
    (t : String × Nat × Nat) : Bool :=
  match charToValue (lastCharOrX t.1) with
  | some k => k ∈ accept
  | none => false

/-- The metadata index restricted to the geohashes whose last character
parses to a value inside the acceptable set (the arrays zipped so the
parallel entries travel together). -/
def filterIndexMeta (charToValue : Char → Option Nat) (accept : List Nat)
    (bi : BlockIndexProtoM) : BlockIndexProtoM :=
  let kept := (bi.geohashes.zip (bi.startIndices.zip bi.endIndices)).filter
    (keepCode charToValue accept)
  { geohashes := kept.map Prod.fst,
    startIndices := kept.map fun t => t.2.1,
    endIndices := kept.map fun t => t.2.2,
    startTimestamp := bi.startTimestamp,
    endTimestamp := bi.endTimestamp }

/-! ## Block-id codec (shared crate, outside src/) -/

/-- Modelled from the spec: the Spatial Coder's per-character value map
(shared::geohash_char_to_value), "maps a single code character to its
comparable numeric value" over the fixed 16-character geohash_16 alphabet;
characters outside the alphabet are an Err. -/
def geohashCharToValue (c : Char) : Option Nat :=
  if '0' ≤ c ∧ c ≤ '9' then some (c.toNat - 48)
  else if 'a' ≤ c ∧ c ≤ 'f' then some (c.toNat - 87)
  else none

/-- Sum of 2^v over a code-value whitelist: the compact bit-set
representation of a matched-code set (one bit per possible final
character value, well defined on strictly sorted lists). -/
def maskOf (vs : List Nat) : Nat :=
  vs.foldr (fun v m => 2 ^ v + m) 0

/-- Read a bit set back into its strictly sorted value list. -/
def decodeBits : Nat → Nat → List Nat
  | 0, _ => []
  | k + 1, m =>
    (if m % 2 = 1 then [0] else []) ++ (decodeBits k (m / 2)).map (· + 1)

/-- Modelled from the spec: shared::block::encode_block_id, absent from
src/.  Spec 4.4/6/9: a deterministic, reversible, tagged 64-bit encoding,
"physical-id bits + a compact representation of the matched-code set";
the matched-code set is carried as the datanode's filtered-read whitelist,
the numeric values of the codes' final characters (cf. read_indexed_block's
geohashes argument): low 16 bits the value bit set, high 48 bits the
physical block id. -/
def encodeBlockId (blockId : Nat) (vs : List Nat) : Nat :=
  (blockId * 2 ^ 16 + maskOf vs) % 2 ^ 64

/-- Modelled from the spec: the decoder a datanode runs on a synthetic id
to recover the physical block id and the code-value whitelist. -/
def decodeBlockId (n : Nat) : Nat × List Nat :=
  (n / 2 ^ 16, decodeBits 16 (n % 2 ^ 16))

/-- The canonical value whitelist of a matched-code string set: the set of
final-character values in increasing order. -/
def codeValues (gs : List String) : List Nat :=
  (List.range 16).filter fun v =>
    v ∈ gs.filterMap fun g => geohashCharToValue (lastCharOrX g)

/-- Modelled from the spec: encode_block_id as called by
validate_block_ids on the matched geohash strings of one block. -/
def encodeBlockIdStrings (blockId : Nat) (gs : List String) : Nat :=
  encodeBlockId blockId (codeValues gs)

/-! ## Namenode: validate_block_ids and to_located_blocks_proto -/

/-- A Block record of the namenode's authoritative BlockStore. -/
structure BlockRec where
  id : Nat
  length : Nat
  locations : List String
  storageIds : List String

/-- The wrapping u32 accumulation query_block_length += length. -/
def sumU32 (ls : List Nat) : Nat :=
  ls.foldl (fun a l => (a + l) % 2 ^ 32) 0

/-- The with-query loop of validate_block_ids over the spatial index's
query result (block id, matched geohashes, matched lengths): a block with
zero matched geohashes is skipped entirely, any other block is emitted
with the synthetic id and the summed matched length. -/
def vbQueryGo : List (Nat × List String × List Nat) →
    List (Nat × Option (Nat × Nat))
  | [] => []
  | (bid, gs, ls) :: t =>
    if gs.length = 0 then vbQueryGo t
    else (bid, some (encodeBlockIdStrings bid gs, sumU32 ls)) :: vbQueryGo t

/-- validate_block_ids.  The spatial index (crate radix, outside src/)
enters as its query result queryMap; with no query each block id is kept
exactly when the BlockStore knows it, without an override. -/
def validateBlockIds (blockIds : List Nat) (store : Nat → Option BlockRec)
    (queryMap : Option (List (Nat × List String × List Nat))) :
    List (Nat × Option (Nat × Nat)) :=
  match queryMap with
  | some qm => vbQueryGo qm
  | none =>
    blockIds.filterMap fun bid =>
      if (store bid).isSome then some (bid, (none : Option (Nat × Nat)))
      else none

/-- One emitted LocatedBlockProto (its locs abstracted to the datanode ids
the DatanodeStore resolves; to_datanode_info_proto's aggregation is not
claim-relevant). -/
structure LocatedBlockM where
  blockId : Nat
  numBytes : Nat
  offset : Nat
  locs : List String
  storageIds : List String

/-- The LocatedBlocksProto assembled by to_located_blocks_proto. -/
structure LocatedBlocksM where
  blocks : List LocatedBlockM
  fileLength : Nat
  underConstruction : Bool
  isLastBlockComplete : Bool

/-- The block loop of to_located_blocks_proto: for every resolved id,
block_store.get_block(&block_id).unwrap() — a missing block is a panic
(none); the override or the physical (id, length) fills the extended
block, and the running length sets each offset. -/
def tlbGo (store : Nat → Option BlockRec) (dstore : String → Bool) :
    Nat → List (Nat × Option (Nat × Nat)) → Option (List LocatedBlockM × Nat)
  | len, [] => some ([], len)
  | len, (bid, qr) :: t =>
    match store bid with
    | none => none
    | some blk =>
      let eb := match qr with
        | some q => q
        | none => (blk.id, blk.length)
      let lb : LocatedBlockM :=
        { blockId := eb.1, numBytes := eb.2, offset := len,
          locs := blk.locations.filter dstore,
          storageIds := blk.storageIds }
      (tlbGo store dstore (len + eb.2) t).map fun p => (lb :: p.1, p.2)

/-- to_located_blocks_proto over a file's block list: resolve through
validate_block_ids, then emit the located blocks (completeness is always
reported, per the source's commented-out bookkeeping). -/
def toLocatedBlocks (fileBlocks : List Nat) (store : Nat → Option BlockRec)
    (dstore : String → Bool)
    (queryMap : Option (List (Nat × List String × List Nat))) :
    Option LocatedBlocksM :=
  (tlbGo store dstore 0 (validateBlockIds fileBlocks store queryMap)).map
    fun p => { blocks := p.1, fileLength := p.2,
               underConstruction := false, isLastBlockComplete := true }

/-- Total written length of an indexed write: the sum of all range widths. -/
def totalLen (idx : List (String × List (Nat × Nat))) : Nat :=
  (idx.map fun e => (e.2.map fun r => r.2 - r.1).sum).sum

/-- The geohash strings stored in a block's metadata index. -/
def storedGeohashes (meta : BlockMetadataProtoM) : List String :=
  match meta.index with
  | none => []
  | some bi => bi.geohashes

/-! ## Helper lemmas -/

theorem transferRangesGo_eq_writeRangesGo (data : List Nat)
    (rs : List (Nat × Nat)) : ∀ cur : Nat,
    transferRangesGo data rs = (writeRangesGo data cur rs).map Prod.fst := by
  induction rs with
  | nil => intro cur; rfl
  | cons r t ih =>
    intro cur
    by_cases h : r.1 ≤ r.2 ∧ r.2 ≤ data.length
    · simp only [transferRangesGo, writeRangesGo, if_pos h,
        ih ((cur + (r.2 - r.1)) % 2 ^ 64), Option.map_map]
      rfl
    · simp only [transferRangesGo, writeRangesGo, if_neg h]
      rfl

theorem transferIdxGo_eq_wbGo (data : List Nat)
    (idx : List (String × List (Nat × Nat))) : ∀ cur : Nat,
    transferIdxGo data idx = (wbGo data cur idx).map fun r => r.1 := by
  induction idx with
  | nil => intro cur; rfl
  | cons e t ih =>
    intro cur
    obtain ⟨g, rs⟩ := e
    rw [transferIdxGo, wbGo, transferRangesGo_eq_writeRangesGo data rs cur]
    cases hw : writeRangesGo data cur rs with
    | none => rfl
    | some p =>
      obtain ⟨bs, cur2⟩ := p
      simp only [Option.map_some']
      rw [ih cur2]
      cases hwb : wbGo data cur2 t with
      | none => simp
      | some r =>
        obtain ⟨bs2, gs, ss, es, fin⟩ := r
        simp

/-- C7: for every BlockOperation with an index (and its timestamps, set
together with it by index_block), the payload bytes transfer_block writes
to a replica after the metadata record are byte-for-byte the data-file
bytes write_block persists — both are the code-sorted, insertion-ordered
regrouping of the payload, and both panic at exactly the same ill-formed
range; for a BlockOperation without an index both write the payload
verbatim. -/
theorem c7_transfer_matches_write :
    (∀ op : BlockOperation,
      transferPayloadM op = (writeBlockM op).map Prod.fst) ∧
    (∀ op : BlockOperation, op.index = none →
      transferPayloadM op = some op.data ∧
      (writeBlockM op).map Prod.fst = some op.data) := by
  constructor
  · intro op
    rcases hidx : op.index with _ | idx <;>
      rcases hts : op.timestamps with _ | ts <;>
        simp only [transferPayloadM, writeBlockM, hidx, hts, Option.map_some']
    rw [transferIdxGo_eq_wbGo op.data idx 0, Option.map_map]
    rfl
  · intro op h
    rcases hts : op.timestamps with _ | ts <;>
      simp only [transferPayloadM, writeBlockM, h, hts, Option.map_some'] <;>
        exact ⟨trivial, trivial⟩

/-- C7 witness: a concrete BlockOperation without an index transfers and
persists its payload verbatim. -/
theorem c7_transfer_matches_write_witness :
    transferPayloadM ⟨9, [1, 2, 3], none, none⟩ = some [1, 2, 3] ∧
    (writeBlockM ⟨9, [1, 2, 3], none, none⟩).map Prod.fst = some [1, 2, 3] :=
  c7_transfer_matches_write.2 ⟨9, [1, 2, 3], none, none⟩ rfl

/-- C9: on the empty payload, index_block panics (the loop bound computes
data.len() - 1 on the unsigned length 0: the debug build panics on the
subtraction, the release build wraps and panics indexing data[1]); it
neither returns Ok with an empty index nor an Err value. -/
theorem c9_index_block_empty_panics :
    ∀ parse : ParseOracle, indexBlock parse [] = none := by
  intro parse
  rfl

/-- C8: the with-query path of validate_block_ids never consults the block
store (its result is the same under any two stores), and
to_located_blocks_proto unwraps block_store.get_block for every resolved
id: on a query result naming block id 5, absent from an empty store, the
located-blocks projection panics (none) instead of erroring or dropping
the block. -/
theorem c8_located_blocks_unwrap_panic :
    (∀ (ids : List Nat) (store1 store2 : Nat → Option BlockRec)
        (qm : List (Nat × List String × List Nat)),
      validateBlockIds ids store1 (some qm) =
        validateBlockIds ids store2 (some qm)) ∧
    toLocatedBlocks [5] (fun _ => none) (fun _ => false)
        (some [(5, ["aaaa"], [7])]) = none := by
  constructor
  · intro ids store1 store2 qm
    rfl
  · rfl

/-- How transfer_block reports one replica behaviour when no write fails. -/
def attemptOf (wire : List Nat) (b : ReplicaNet) : Attempt :=
  if b = ReplicaNet.noConnect then Attempt.connectFailed
  else Attempt.delivered wire

/-- C1 counterexample: with two replica endpoints where the first connects
but a write on its stream fails, transfer_block returns Err (the ? operator
escapes the replica loop) and the second replica receives no delivery
attempt at all — refuting that a write error is caught, does not abort the
remaining replicas, and does not propagate. -/
theorem c1_counterexample :
    (tbGo [9] [ReplicaNet.writeFail, ReplicaNet.ok]).2 ≠ some () ∧
    Attempt.delivered [9] ∉ (tbGo [9] [ReplicaNet.writeFail, ReplicaNet.ok]).1 := by
  exact ⟨by decide, by decide⟩

/-- C1 (amended): a CONNECT failure on one replica is caught and logged,
does not abort delivery attempts to the remaining replicas, and does not
propagate as an error of the overall transfer; a WRITE failure after a
successful connect, however, propagates as the transfer's error and aborts
the delivery attempts to all replicas not yet reached. -/
theorem c1_transfer_error_isolation :
    (∀ (wire : List Nat) (net : List ReplicaNet),
      ReplicaNet.writeFail ∉ net →
      tbGo wire net = (net.map (attemptOf wire), some ())) ∧
    (∀ (wire : List Nat) (pre post : List ReplicaNet),
      ReplicaNet.writeFail ∉ pre →
      tbGo wire (pre ++ ReplicaNet.writeFail :: post) =
        (pre.map (attemptOf wire) ++ [Attempt.writeAborted], none)) := by
  constructor
  · intro wire net h
    induction net with
    | nil => rfl
    | cons b t ih =>
      have hb : b ≠ ReplicaNet.writeFail := fun hb => h (hb ▸ List.mem_cons_self b t)
      have ht : ReplicaNet.writeFail ∉ t := fun hm => h (List.mem_cons_of_mem b hm)
      cases b with
      | noConnect => simp [tbGo, ih ht, attemptOf]
      | writeFail => exact absurd rfl hb
      | ok => simp [tbGo, ih ht, attemptOf]
  · intro wire pre post h
    induction pre with
    | nil => rfl
    | cons b t ih =>
      have hb : b ≠ ReplicaNet.writeFail := fun hb => h (hb ▸ List.mem_cons_self b t)
      have ht : ReplicaNet.writeFail ∉ t := fun hm => h (List.mem_cons_of_mem b hm)
      cases b with
      | noConnect => simp [tbGo, ih ht, attemptOf]
      | writeFail => exact absurd rfl hb
      | ok => simp [tbGo, ih ht, attemptOf]

/-- C1 witness: three endpoints whose first connect fails still get
delivery attempts on the other two with an Ok overall result (the spec's
scenario 8), and a write failure on the second of three endpoints aborts
the third and errors the transfer. -/
theorem c1_transfer_error_isolation_witness :
    tbGo [9] [ReplicaNet.noConnect, ReplicaNet.ok, ReplicaNet.ok] =
      ([ReplicaNet.noConnect, ReplicaNet.ok, ReplicaNet.ok].map (attemptOf [9]),
        some ()) ∧
    tbGo [9] [ReplicaNet.ok, ReplicaNet.writeFail, ReplicaNet.ok] =
      ([ReplicaNet.ok].map (attemptOf [9]) ++ [Attempt.writeAborted], none) :=
  ⟨c1_transfer_error_isolation.1 [9] _ (by decide),
   c1_transfer_error_isolation.2 [9] [ReplicaNet.ok] [ReplicaNet.ok] (by decide)⟩

theorem decodeBits_zero : ∀ k : Nat, decodeBits k 0 = [] := by
  intro k
  induction k with
  | zero => rfl
  | succ n ih => simp [decodeBits, ih]

theorem maskOf_double (t : List Nat) (h : ∀ v ∈ t, 0 < v) :
    maskOf t = 2 * maskOf (t.map fun v => v - 1) := by
  induction t with
  | nil => rfl
  | cons v s ih =>
    have hv : 0 < v := h v (List.mem_cons_self v s)
    have hs : ∀ w ∈ s, 0 < w := fun w hw => h w (List.mem_cons_of_mem v hw)
    obtain ⟨n, rfl⟩ := Nat.exists_eq_succ_of_ne_zero (Nat.pos_iff_ne_zero.mp hv)
    simp only [maskOf, List.foldr_cons, List.map_cons] at *
    rw [ih hs]
    rw [pow_succ]
    simp only [Nat.succ_sub_one]
    ring

theorem maskOf_lt : ∀ (k : Nat) (vs : List Nat), List.Pairwise (· < ·) vs →
    (∀ v ∈ vs, v < k) → maskOf vs < 2 ^ k := by
  intro k
  induction k with
  | zero =>
    intro vs _ hb
    cases vs with
    | nil => simp [maskOf]
    | cons v t => exact absurd (hb v (List.mem_cons_self v t)) (Nat.not_lt_zero v)
  | succ n ih =>
    intro vs hp hb
    cases vs with
    | nil => simp [maskOf]
    | cons v t =>
      have hpt : List.Pairwise (· < ·) t := hp.tail
      have hvt : ∀ w ∈ t, v < w := fun w hw => List.rel_of_pairwise_cons hp hw
      have hmap : ∀ (l : List Nat), List.Pairwise (· < ·) l → (∀ w ∈ l, 0 < w) →
          List.Pairwise (· < ·) (l.map fun w => w - 1) := by
        intro l hl hpos
        rw [List.pairwise_map]
        exact hl.imp_of_mem fun ha hb hab =>
          Nat.sub_lt_sub_right (hpos _ ha) hab
      cases v with
      | zero =>
        have hpos : ∀ w ∈ t, 0 < w := fun w hw => hvt w hw
        have h2 : maskOf t = 2 * maskOf (t.map fun w => w - 1) :=
          maskOf_double t hpos
        have hb2 : ∀ w ∈ t.map (fun w => w - 1), w < n := by
          intro w hw
          obtain ⟨u, hu, rfl⟩ := List.mem_map.mp hw
          have := hb u (List.mem_cons_of_mem 0 hu)
          have := hpos u hu
          omega
        have := ih (t.map fun w => w - 1) (hmap t hpt hpos) hb2
        have hm : maskOf (0 :: t) = 1 + maskOf t := by simp [maskOf]
        rw [hm, h2, pow_succ]
        omega
      | succ m =>
        have hpos : ∀ w ∈ (m + 1) :: t, 0 < w := by
          intro w hw
          rcases List.mem_cons.mp hw with h1 | h1
          · omega
          · have := hvt w h1; omega
        have h2 : maskOf ((m + 1) :: t) =
            2 * maskOf (((m + 1) :: t).map fun w => w - 1) :=
          maskOf_double _ hpos
        have hb2 : ∀ w ∈ ((m + 1) :: t).map (fun w => w - 1), w < n := by
          intro w hw
          obtain ⟨u, hu, rfl⟩ := List.mem_map.mp hw
          have := hb u hu
          have := hpos u hu
          omega
        have := ih (((m + 1) :: t).map fun w => w - 1) (hmap _ hp hpos) hb2
        rw [h2, pow_succ]
        omega

theorem decodeBits_maskOf : ∀ (k : Nat) (vs : List Nat),
    List.Pairwise (· < ·) vs → (∀ v ∈ vs, v < k) →
    decodeBits k (maskOf vs) = vs := by
  intro k
  induction k with
  | zero =>
    intro vs _ hb
    cases vs with
    | nil => rfl
    | cons v t => exact absurd (hb v (List.mem_cons_self v t)) (Nat.not_lt_zero v)
  | succ n ih =>
    intro vs hp hb
    have hmap : ∀ (l : List Nat), List.Pairwise (· < ·) l → (∀ w ∈ l, 0 < w) →
        List.Pairwise (· < ·) (l.map fun w => w - 1) := by
      intro l hl hpos
      rw [List.pairwise_map]
      exact hl.imp_of_mem fun ha hb hab =>
        Nat.sub_lt_sub_right (hpos _ ha) hab
    have hsucc : ∀ (l : List Nat), (∀ w ∈ l, 0 < w) →
        (l.map fun w => w - 1).map (· + 1) = l := by
      intro l hpos
      rw [List.map_map]
      have : ∀ w ∈ l, (w - 1) + 1 = w := fun w hw => Nat.succ_pred_eq_of_pos (hpos w hw)
      calc l.map ((· + 1) ∘ fun w => w - 1)
          = l.map id := List.map_congr_left fun w hw => this w hw
        _ = l := List.map_id l
    cases vs with
    | nil => rw [maskOf]; simp [decodeBits, decodeBits_zero]
    | cons v t =>
      have hpt : List.Pairwise (· < ·) t := hp.tail
      have hvt : ∀ w ∈ t, v < w := fun w hw => List.rel_of_pairwise_cons hp hw
      cases v with
      | zero =>
        have hpos : ∀ w ∈ t, 0 < w := fun w hw => hvt w hw
        have h2 : maskOf t = 2 * maskOf (t.map fun w => w - 1) :=
          maskOf_double t hpos
        have hm : maskOf (0 :: t) = 1 + 2 * maskOf (t.map fun w => w - 1) := by
          simp [maskOf] at *
          omega
        have hb2 : ∀ w ∈ t.map (fun w => w - 1), w < n := by
          intro w hw
          obtain ⟨u, hu, rfl⟩ := List.mem_map.mp hw
          have := hb u (List.mem_cons_of_mem 0 hu)
          have := hpos u hu
          omega
        have hrec := ih (t.map fun w => w - 1) (hmap t hpt hpos) hb2
        rw [hm, decodeBits]
        have e1 : (1 + 2 * maskOf (t.map fun w => w - 1)) % 2 = 1 := by omega
        have e2 : (1 + 2 * maskOf (t.map fun w => w - 1)) / 2 =
            maskOf (t.map fun w => w - 1) := by omega
        rw [e1, e2, hrec, hsucc t hpos]
        simp
      | succ m =>
        have hpos : ∀ w ∈ (m + 1) :: t, 0 < w := by
          intro w hw
          rcases List.mem_cons.mp hw with h1 | h1
          · omega
          · have := hvt w h1; omega
        have h2 : maskOf ((m + 1) :: t) =
            2 * maskOf (((m + 1) :: t).map fun w => w - 1) :=
          maskOf_double _ hpos
        have hb2 : ∀ w ∈ ((m + 1) :: t).map (fun w => w - 1), w < n := by
          intro w hw
          obtain ⟨u, hu, rfl⟩ := List.mem_map.mp hw
          have := hb u hu
          have := hpos u hu
          omega
        have hrec := ih (((m + 1) :: t).map fun w => w - 1) (hmap _ hp hpos) hb2
        rw [h2, decodeBits]
        have e1 : 2 * maskOf (((m + 1) :: t).map fun w => w - 1) % 2 = 0 := by omega
        have e2 : 2 * maskOf (((m + 1) :: t).map fun w => w - 1) / 2 =
            maskOf (((m + 1) :: t).map fun w => w - 1) := by omega
        rw [e1, e2, hrec, hsucc _ hpos]
        simp

/-- C2: the block-id codec (modelled from the spec, the shared crate being
outside src/) is deterministic — identical physical block id and identical
ordered matched-code whitelist always produce the identical synthetic id —
and decoding the synthetic id recovers exactly the original
(physical block id, code whitelist) pair, for every id fitting the 48
physical-id bits and every strictly ordered whitelist of 4-bit code
values. -/
theorem c2_codec_roundtrip (b : Nat) (vs : List Nat) (b2 : Nat)
    (vs2 : List Nat) (hb : b < 2 ^ 48) (hs : List.Pairwise (· < ·) vs)
    (hv : ∀ v ∈ vs, v < 16) (heqb : b = b2) (heqv : vs = vs2) :
    encodeBlockId b vs = encodeBlockId b2 vs2 ∧
    decodeBlockId (encodeBlockId b vs) = (b, vs) := by
  subst heqb
  subst heqv
  refine ⟨rfl, ?_⟩
  have hmask : maskOf vs < 2 ^ 16 := maskOf_lt 16 vs hs hv
  have h16 : (2 : Nat) ^ 16 = 65536 := by norm_num
  have h48 : (2 : Nat) ^ 48 = 281474976710656 := by norm_num
  have h64 : (2 : Nat) ^ 64 = 18446744073709551616 := by norm_num
  have hlt : b * 2 ^ 16 + maskOf vs < 2 ^ 64 := by
    rw [h16, h64]
    rw [h16] at hmask
    rw [h48] at hb
    omega
  have henc : encodeBlockId b vs = b * 2 ^ 16 + maskOf vs := by
    unfold encodeBlockId
    exact Nat.mod_eq_of_lt hlt
  have hdiv : (b * 2 ^ 16 + maskOf vs) / 2 ^ 16 = b := by
    rw [h16]
    rw [h16] at hmask
    omega
  have hmod : (b * 2 ^ 16 + maskOf vs) % 2 ^ 16 = maskOf vs := by
    rw [h16]
    rw [h16] at hmask
    omega
  unfold decodeBlockId
  rw [henc, hdiv, hmod, decodeBits_maskOf 16 vs hs hv]

/-- C2 witness: block id 3 with whitelist [2, 5] encodes deterministically
and decodes back exactly. -/
theorem c2_codec_roundtrip_witness :
    encodeBlockId 3 [2, 5] = encodeBlockId 3 [2, 5] ∧
    decodeBlockId (encodeBlockId 3 [2, 5]) = (3, [2, 5]) :=
  c2_codec_roundtrip 3 [2, 5] 3 [2, 5] (by norm_num)
    (by decide) (by decide) rfl rfl

theorem sumU32_foldl (ls : List Nat) : ∀ a : Nat, a + ls.sum < 2 ^ 32 →
    ls.foldl (fun a l => (a + l) % 2 ^ 32) a = a + ls.sum := by
  induction ls with
  | nil => intro a _; simp
  | cons l t ih =>
    intro a h
    simp only [List.sum_cons] at h
    have h1 : (a + l) % 2 ^ 32 = a + l := Nat.mod_eq_of_lt (by omega)
    simp only [List.foldl_cons, h1, List.sum_cons]
    rw [ih (a + l) (by omega)]
    omega

theorem sumU32_eq (ls : List Nat) (h : ls.sum < 2 ^ 32) :
    sumU32 ls = ls.sum := by
  unfold sumU32
  rw [sumU32_foldl ls 0 (by omega)]
  omega

/-- C4: with no query, validate_block_ids keeps exactly the block ids the
block store knows, in order, each without an override, silently dropping
missing ids; with a query, every block whose matched-code set is empty is
excluded entirely, and every other block is emitted with an override
(synthetic id from the codec, sum of its individual matched lengths). -/
theorem c4_validate_block_ids (ids : List Nat) (store : Nat → Option BlockRec)
    (qm : List (Nat × List String × List Nat))
    (h : ∀ e ∈ qm, (e.2.2).sum < 2 ^ 32) :
    validateBlockIds ids store none =
      (ids.filter fun bid => (store bid).isSome).map
        (fun bid => (bid, (none : Option (Nat × Nat)))) ∧
    validateBlockIds ids store (some qm) =
      (qm.filter fun e => !(e.2.1.isEmpty)).map
        (fun e => (e.1, some (encodeBlockIdStrings e.1 e.2.1, (e.2.2).sum))) := by
  have hnq : ∀ t : List Nat,
      t.filterMap (fun bid => if (store bid).isSome
          then some (bid, (none : Option (Nat × Nat))) else none) =
        (t.filter fun bid => (store bid).isSome).map
          (fun bid => (bid, none)) := by
    intro t
    induction t with
    | nil => rfl
    | cons bid s ih =>
      cases hb : (store bid).isSome with
      | true => simp [List.filterMap_cons, List.filter_cons, hb, ih]
      | false => simp [List.filterMap_cons, List.filter_cons, hb, ih]
  have hq : ∀ t : List (Nat × List String × List Nat),
      (∀ e ∈ t, (e.2.2).sum < 2 ^ 32) →
      vbQueryGo t = (t.filter fun e => !(e.2.1.isEmpty)).map
        (fun e => (e.1, some (encodeBlockIdStrings e.1 e.2.1, (e.2.2).sum))) := by
    intro t ht0
    induction t with
    | nil => rfl
    | cons e s ih =>
      obtain ⟨bid, gs, ls⟩ := e
      have ht : ∀ x ∈ s, (x.2.2).sum < 2 ^ 32 :=
        fun x hx => ht0 x (List.mem_cons_of_mem _ hx)
      have hsum : ls.sum < 2 ^ 32 := ht0 (bid, gs, ls) (List.mem_cons_self _ _)
      cases gs with
      | nil => simp [vbQueryGo, List.filter_cons, ih ht]
      | cons g gt =>
        simp only [vbQueryGo, List.length_cons]
        rw [if_neg (by omega)]
        rw [sumU32_eq ls hsum]
        simp [List.filter_cons, ih ht]
  exact ⟨hnq ids, hq qm h⟩

/-- C4 witness: of three candidate query results only the one with a
nonempty matched-code set survives, carrying its synthetic id and summed
matched length 9; without a query only the stored id 2 survives. -/
theorem c4_validate_block_ids_witness :
    validateBlockIds [1, 2, 3]
        (fun n => if n = 2 then some ⟨2, 10, [], []⟩ else none) none =
      (([1, 2, 3].filter fun bid =>
          ((fun n => if n = 2 then some (⟨2, 10, [], []⟩ : BlockRec)
            else none) bid).isSome).map
        fun bid => (bid, (none : Option (Nat × Nat)))) ∧
    validateBlockIds [1, 2, 3]
        (fun n => if n = 2 then some ⟨2, 10, [], []⟩ else none)
        (some [(7, ["aaa2"], [4, 5]), (8, [], [1]), (9, [], [2])]) =
      (([(7, ["aaa2"], [4, 5]), (8, [], [1]), (9, [], [2])].filter
          fun e => !(e.2.1.isEmpty)).map
        fun e => (e.1, some (encodeBlockIdStrings e.1 e.2.1, (e.2.2).sum))) :=
  c4_validate_block_ids [1, 2, 3]
    (fun n => if n = 2 then some ⟨2, 10, [], []⟩ else none)
    [(7, ["aaa2"], [4, 5]), (8, [], [1]), (9, [], [2])] (by decide)

theorem writeRangesGo_spec (data : List Nat) (rs : List (Nat × Nat)) :
    ∀ cur : Nat, (∀ r ∈ rs, r.1 ≤ r.2 ∧ r.2 ≤ data.length) →
    cur + (rs.map fun r => r.2 - r.1).sum < 2 ^ 64 →
    ∃ bs, writeRangesGo data cur rs =
      some (bs, cur + (rs.map fun r => r.2 - r.1).sum) := by
  induction rs with
  | nil => intro cur _ _; exact ⟨[], by simp [writeRangesGo]⟩
  | cons r t ih =>
    intro cur hb hlt
    have hr := hb r (List.mem_cons_self r t)
    have ht : ∀ x ∈ t, x.1 ≤ x.2 ∧ x.2 ≤ data.length :=
      fun x hx => hb x (List.mem_cons_of_mem r hx)
    simp only [List.map_cons, List.sum_cons] at hlt ⊢
    have hmod : (cur + (r.2 - r.1)) % 2 ^ 64 = cur + (r.2 - r.1) :=
      Nat.mod_eq_of_lt (by omega)
    obtain ⟨bs, hbs⟩ := ih (cur + (r.2 - r.1)) ht (by omega)
    refine ⟨sliceRange data r.1 r.2 ++ bs, ?_⟩
    simp only [writeRangesGo, if_pos hr, hmod, hbs, Option.map_some']
    have : cur + (r.2 - r.1) + (t.map fun x => x.2 - x.1).sum =
        cur + ((r.2 - r.1) + (t.map fun x => x.2 - x.1).sum) := by omega
    rw [this]

theorem wbGo_spec (data : List Nat) (idx : List (String × List (Nat × Nat))) :
    ∀ cur : Nat,
    (∀ e ∈ idx, ∀ r ∈ e.2, r.1 ≤ r.2 ∧ r.2 ≤ data.length) →
    cur + totalLen idx < 2 ^ 32 →
    ∃ bs gs ss es, wbGo data cur idx =
        some (bs, gs, ss, es, cur + totalLen idx) ∧
      gs.length = idx.length ∧ ss.length = idx.length ∧ es.length = idx.length ∧
      (∀ i, i < idx.length → ss.getD i 0 ≤ es.getD i 0) ∧
      (∀ i, i + 1 < idx.length → es.getD i 0 = ss.getD (i + 1) 0) ∧
      (idx ≠ [] → ss.getD 0 0 = cur) ∧
      (idx ≠ [] → es.getD (idx.length - 1) 0 = cur + totalLen idx) := by
  induction idx with
  | nil =>
    intro cur _ _
    refine ⟨[], [], [], [], ?_, rfl, rfl, rfl, ?_, ?_, ?_, ?_⟩
    · simp [wbGo, totalLen]
    · intro i hi; exact absurd hi (Nat.not_lt_zero i)
    · intro i hi; simp at hi
    · intro h; exact absurd rfl h
    · intro h; exact absurd rfl h
  | cons e t ih =>
    intro cur hb hlt
    obtain ⟨g, rs⟩ := e
    have hbr : ∀ r ∈ rs, r.1 ≤ r.2 ∧ r.2 ≤ data.length :=
      fun r hr => hb (g, rs) (List.mem_cons_self _ _) r hr
    have hbt : ∀ x ∈ t, ∀ r ∈ x.2, r.1 ≤ r.2 ∧ r.2 ≤ data.length :=
      fun x hx => hb x (List.mem_cons_of_mem _ hx)
    have htot : totalLen ((g, rs) :: t) =
        (rs.map fun r => r.2 - r.1).sum + totalLen t := by
      simp [totalLen]
    rw [htot] at hlt ⊢
    set S := (rs.map fun r => r.2 - r.1).sum with hS
    have h64 : cur + S < 2 ^ 64 := by
      have : (2 : Nat) ^ 32 < 2 ^ 64 := by norm_num
      omega
    obtain ⟨bs, hw⟩ := writeRangesGo_spec data rs cur hbr h64
    obtain ⟨bs2, gs, ss, es, hwb, hg, hs, he, hse, hcont, hhead, hlast⟩ :=
      ih (cur + S) hbt (by omega)
    have hcurlt : cur < 2 ^ 32 := by omega
    have hcSlt : cur + S < 2 ^ 32 := by omega
    refine ⟨bs ++ bs2, g :: gs, cur :: ss, (cur + S) :: es, ?_, ?_, ?_, ?_,
      ?_, ?_, ?_, ?_⟩
    · simp only [wbGo, hw, hwb, Nat.mod_eq_of_lt hcurlt, Nat.mod_eq_of_lt hcSlt]
      have : cur + S + totalLen t = cur + (S + totalLen t) := by omega
      rw [this]
    · simp [hg]
    · simp [hs]
    · simp [he]
    · intro i hi
      cases i with
      | zero => simp
      | succ j =>
        simp only [List.getD_cons_succ]
        exact hse j (by simpa using hi)
    · intro i hi
      cases i with
      | zero =>
        have htne : t ≠ [] := by
          intro hteq
          rw [hteq] at hi
          simp at hi
        simp only [List.getD_cons_zero, List.getD_cons_succ]
        exact (hhead htne).symm
      | succ j =>
        simp only [List.getD_cons_succ]
        exact hcont j (by simpa using hi)
    · intro _; simp
    · intro _
      cases t with
      | nil => simp [totalLen]
      | cons x xs =>
        have htne : (x :: xs) ≠ [] := by simp
        have h1 : ((g, rs) :: x :: xs).length - 1 = xs.length + 1 := by simp
        rw [h1]
        simp only [List.getD_cons_succ]
        have h2 := hlast htne
        have h3 : (x :: xs).length - 1 = xs.length := by simp
        rw [h3] at h2
        rw [h2]
        omega

/-- C3: for every BlockOperation whose index (and its companion timestamp
pair) is present, with well-formed ranges (each inside the payload) whose
total written length fits the metadata's u32 offset width, write_block
persists parallel start/end offset arrays with start[i] <= end[i]
everywhere, end[i] == start[i+1] for every consecutive pair, and
end[last] equal to the recorded total written length. -/
theorem c3_write_block_offsets (op : BlockOperation)
    (idx : List (String × List (Nat × Nat))) (ts : Nat × Nat)
    (hidx : op.index = some idx) (hts : op.timestamps = some ts)
    (hb : ∀ e ∈ idx, ∀ r ∈ e.2, r.1 ≤ r.2 ∧ r.2 ≤ op.data.length)
    (hlt : totalLen idx < 2 ^ 32) :
    ∃ bytes meta bi, writeBlockM op = some (bytes, meta) ∧
      meta.index = some bi ∧ meta.length = totalLen idx ∧
      bi.startIndices.length = bi.geohashes.length ∧
      bi.endIndices.length = bi.geohashes.length ∧
      (∀ i, i < bi.geohashes.length →
        bi.startIndices.getD i 0 ≤ bi.endIndices.getD i 0) ∧
      (∀ i, i + 1 < bi.geohashes.length →
        bi.endIndices.getD i 0 = bi.startIndices.getD (i + 1) 0) ∧
      (bi.geohashes ≠ [] →
        bi.endIndices.getD (bi.geohashes.length - 1) 0 = meta.length) := by
  obtain ⟨bs, gs, ss, es, hwb, hg, hs, he, hse, hcont, hhead, hlast⟩ :=
    wbGo_spec op.data idx 0 hb (by omega)
  refine ⟨bs,
    { blockId := op.blockId, length := totalLen idx,
      index := some { geohashes := gs, startIndices := ss, endIndices := es,
                      startTimestamp := ts.1, endTimestamp := ts.2 } },
    { geohashes := gs, startIndices := ss, endIndices := es,
      startTimestamp := ts.1, endTimestamp := ts.2 },
    ?_, rfl, rfl, ?_, ?_, ?_, ?_, ?_⟩
  · simp [writeBlockM, hidx, hts, hwb]
  · simpa using hs.trans hg.symm
  · simpa using he.trans hg.symm
  · intro i hi
    exact hse i (by simp at hi; omega)
  · intro i hi
    exact hcont i (by simp at hi; omega)
  · intro hne
    have hidxne : idx ≠ [] := by
      intro heq
      rw [heq] at hg
      simp at hg
      exact hne (List.eq_nil_of_length_eq_zero (by simpa using hg))
    have := hlast hidxne
    simpa [hg] using this

/-- C3 witness: a concrete two-code index over a six-byte payload satisfies
the offset invariants after write_block. -/
theorem c3_write_block_offsets_witness :
    ∃ bytes meta bi,
      writeBlockM ⟨1, [1, 2, 3, 4, 5, 6], some (10, 20),
          some [("a", [(0, 2), (4, 6)]), ("b", [(2, 4)])]⟩ =
        some (bytes, meta) ∧
      meta.index = some bi ∧
      meta.length = totalLen [("a", [(0, 2), (4, 6)]), ("b", [(2, 4)])] ∧
      bi.startIndices.length = bi.geohashes.length ∧
      bi.endIndices.length = bi.geohashes.length ∧
      (∀ i, i < bi.geohashes.length →
        bi.startIndices.getD i 0 ≤ bi.endIndices.getD i 0) ∧
      (∀ i, i + 1 < bi.geohashes.length →
        bi.endIndices.getD i 0 = bi.startIndices.getD (i + 1) 0) ∧
      (bi.geohashes ≠ [] →
        bi.endIndices.getD (bi.geohashes.length - 1) 0 = meta.length) :=
  c3_write_block_offsets
    ⟨1, [1, 2, 3, 4, 5, 6], some (10, 20),
      some [("a", [(0, 2), (4, 6)]), ("b", [(2, 4)])]⟩
    [("a", [(0, 2), (4, 6)]), ("b", [(2, 4)])] (10, 20) rfl rfl
    (by decide) (by decide)

theorem riGo_skip_all (ct : Char → Option Nat) (file : List Nat)
    (bufLen : Nat) (accept : List Nat) :
    ∀ (gs : List String) (ss es : List Nat) (ro bi : Nat) (acc : List Nat),
    (∀ g ∈ gs, ∀ k ∈ accept, ct (lastCharOrX g) ≠ some k) →
    riGo ct file bufLen accept gs ss es ro bi acc = some acc := by
  intro gs
  induction gs with
  | nil => intro ss es ro bi acc _; rfl
  | cons g gt ih =>
    intro ss es ro bi acc h
    have hg : ∀ k ∈ accept, ct (lastCharOrX g) ≠ some k :=
      h g (List.mem_cons_self g gt)
    have ht : ∀ x ∈ gt, ∀ k ∈ accept, ct (lastCharOrX x) ≠ some k :=
      fun x hx => h x (List.mem_cons_of_mem g hx)
    cases hc : ct (lastCharOrX g) with
    | none => simp only [riGo, hc]; exact ih _ _ _ _ _ ht
    | some key =>
      have hkey : key ∉ accept := fun hk => hg key hk hc
      simp only [riGo, hc, if_neg hkey]
      exact ih _ _ _ _ _ ht

theorem riGo_filter (ct : Char → Option Nat) (file : List Nat)
    (bufLen : Nat) (accept : List Nat) :
    ∀ (gs : List String) (ss es : List Nat) (ro bi : Nat) (acc : List Nat),
    ss.length = gs.length → es.length = gs.length →
    riGo ct file bufLen accept gs ss es ro bi acc =
      riGo ct file bufLen accept
        (((gs.zip (ss.zip es)).filter (keepCode ct accept)).map Prod.fst)
        (((gs.zip (ss.zip es)).filter (keepCode ct accept)).map fun t => t.2.1)
        (((gs.zip (ss.zip es)).filter (keepCode ct accept)).map fun t => t.2.2)
        ro bi acc := by
  intro gs
  induction gs with
  | nil =>
    intro ss es ro bi acc hss hes
    simp [riGo]
  | cons g gt ih =>
    intro ss es ro bi acc hss hes
    cases ss with
    | nil => simp at hss
    | cons s st =>
      cases es with
      | nil => simp at hes
      | cons e et =>
        simp only [List.length_cons] at hss hes
        have hss2 : st.length = gt.length := by omega
        have hes2 : et.length = gt.length := by omega
        cases hc : ct (lastCharOrX g) with
        | none =>
          have hkeep : ¬ keepCode ct accept (g, s, e) = true := by
            simp [keepCode, hc]
          simp only [riGo, hc, List.tail_cons, List.zip_cons_cons,
            List.filter_cons_of_neg hkeep]
          exact ih st et ro bi acc hss2 hes2
        | some key =>
          by_cases hkey : key ∈ accept
          · have hkeep : keepCode ct accept (g, s, e) = true := by
              simp [keepCode, hc, hkey]
            simp only [riGo, hc, if_pos hkey, List.tail_cons,
              List.zip_cons_cons, List.filter_cons_of_pos hkeep,
              List.map_cons, List.head?_cons]
            cases hp : processRange file bufLen s e ro bi acc with
            | none => rfl
            | some triple =>
              obtain ⟨acc2, bi2, ro2⟩ := triple
              simp only [List.tail_cons]
              exact ih st et ro2 bi2 acc2 hss2 hes2
          · have hkeep : ¬ keepCode ct accept (g, s, e) = true := by
              simp [keepCode, hc, hkey]
            simp only [riGo, hc, if_neg hkey, List.tail_cons,
              List.zip_cons_cons, List.filter_cons_of_neg hkeep]
            exact ih st et ro bi acc hss2 hes2

/-- C6: a filtered read whose acceptable spatial-code value set is
disjoint from the values of every code stored in the block's metadata
copies zero bytes into the destination buffer and succeeds; and in
general only the codes whose last character's numeric value lies in the
acceptable set contribute bytes — restricting the metadata to exactly
those codes leaves the read's result unchanged. -/
theorem c6_filtered_read (ct : Char → Option Nat) (file : List Nat)
    (meta : BlockMetadataProtoM) (accept : List Nat) (off bufLen : Nat)
    (bid blen : Nat) (bi : BlockIndexProtoM)
    (hdisj : ∀ g ∈ storedGeohashes meta, ∀ k ∈ accept,
      ct (lastCharOrX g) ≠ some k)
    (hss : bi.startIndices.length = bi.geohashes.length)
    (hes : bi.endIndices.length = bi.geohashes.length) :
    readIndexedBlock ct file meta accept off bufLen = some [] ∧
    readIndexedBlock ct file ⟨bid, blen, some bi⟩ accept off bufLen =
      readIndexedBlock ct file ⟨bid, blen, some (filterIndexMeta ct accept bi)⟩
        accept off bufLen := by
  constructor
  · cases hm : meta.index with
    | none => simp [readIndexedBlock, hm]
    | some b =>
      have hdisj2 : ∀ g ∈ b.geohashes, ∀ k ∈ accept,
          ct (lastCharOrX g) ≠ some k := by
        intro g hg
        exact hdisj g (by simp [storedGeohashes, hm, hg])
      simp only [readIndexedBlock, hm]
      exact riGo_skip_all ct file bufLen accept b.geohashes b.startIndices
        b.endIndices off 0 [] hdisj2
  · simp only [readIndexedBlock, filterIndexMeta]
    exact riGo_filter ct file bufLen accept bi.geohashes bi.startIndices
      bi.endIndices off 0 [] hss hes

/-- C6 witness: with stored codes "aaa2" and "aaa5" and acceptable set
consisting of value 9 only, the filtered read copies nothing; and with
acceptable value 5 the read equals the read over the metadata filtered to
"aaa5" alone. -/
theorem c6_filtered_read_witness :
    readIndexedBlock geohashCharToValue [1, 2, 3, 4, 5, 6]
        ⟨1, 6, some ⟨["aaa2", "aaa5"], [0, 3], [3, 6], 0, 0⟩⟩ [9] 0 10 =
      some [] ∧
    readIndexedBlock geohashCharToValue [1, 2, 3, 4, 5, 6]
        ⟨1, 6, some ⟨["aaa2", "aaa5"], [0, 3], [3, 6], 0, 0⟩⟩ [5] 0 10 =
      readIndexedBlock geohashCharToValue [1, 2, 3, 4, 5, 6]
        ⟨1, 6, some (filterIndexMeta geohashCharToValue [5]
          ⟨["aaa2", "aaa5"], [0, 3], [3, 6], 0, 0⟩)⟩ [5] 0 10 :=
  ⟨(c6_filtered_read geohashCharToValue [1, 2, 3, 4, 5, 6]
      ⟨1, 6, some ⟨["aaa2", "aaa5"], [0, 3], [3, 6], 0, 0⟩⟩ [9] 0 10
      1 6 ⟨["aaa2", "aaa5"], [0, 3], [3, 6], 0, 0⟩
      (by decide) (by decide) (by decide)).1,
   (c6_filtered_read geohashCharToValue [1, 2, 3, 4, 5, 6]
      ⟨1, 6, none⟩ [5] 0 10
      1 6 ⟨["aaa2", "aaa5"], [0, 3], [3, 6], 0, 0⟩
      (by decide) (by decide) (by decide)).2⟩

theorem innerGo_ge (data : List Nat) (s : Nat) :
    ∀ (fuel e : Nat) (d : List Nat), e ≤ (innerGo data s fuel e d).1 := by
  intro fuel
  induction fuel with
  | zero => intro e d; exact Nat.le_refl e
  | succ f ih =>
    intro e d
    simp only [innerGo]
    by_cases h : e < data.length - 1
    · simp only [if_pos h]
      by_cases h10 : data.getD (e + 1) 0 = 10
      · simp only [if_pos h10]
        exact Nat.le_succ e
      · simp only [if_neg h10]
        by_cases h44 : data.getD (e + 1) 0 = 44
        · simp only [if_pos h44]
          exact le_trans (Nat.le_succ e) (ih (e + 1) (d ++ [e + 1 - s]))
        · simp only [if_neg h44]
          exact le_trans (Nat.le_succ e) (ih (e + 1) d)
    · simp only [if_neg h]
      exact Nat.le_refl e

theorem innerGo_gt (data : List Nat) (s f e : Nat) (d : List Nat)
    (h : e < data.length - 1) : e + 1 ≤ (innerGo data s (f + 1) e d).1 := by
  simp only [innerGo, if_pos h]
  by_cases h10 : data.getD (e + 1) 0 = 10
  · simp only [if_pos h10]
    exact Nat.le_refl (e + 1)
  · simp only [if_neg h10]
    by_cases h44 : data.getD (e + 1) 0 = 44
    · simp only [if_pos h44]
      exact innerGo_ge data s f (e + 1) (d ++ [e + 1 - s])
    · simp only [if_neg h44]
      exact innerGo_ge data s f (e + 1) d

theorem innerLoop_gt (data : List Nat) (e : Nat) (h : e < data.length - 1) :
    e + 1 ≤ (innerLoop data e).1 :=
  innerGo_gt data e data.length e [] h

theorem obsEnd_ge (data : List Nat) (e1 : Nat) : e1 ≤ obsEnd data e1 := by
  unfold obsEnd
  split <;> omega

theorem scanGo_cons (data : List Nat) (fuel e : Nat)
    (r : Nat × Nat × List Nat) (t : List (Nat × Nat × List Nat))
    (h : scanGo data fuel e = r :: t) :
    r.1 = e ∧ e < data.length - 1 ∧
    r.2.1 = obsEnd data (innerLoop data e).1 ∧
    t = scanGo data (fuel - 1) r.2.1 ∧ e + 1 ≤ r.2.1 := by
  cases fuel with
  | zero => simp [scanGo] at h
  | succ f =>
    simp only [scanGo] at h
    by_cases hg : e < data.length - 1
    · rw [if_pos hg] at h
      have hr : r = (e, obsEnd data (innerLoop data e).1, (innerLoop data e).2) ∧
          t = scanGo data f (obsEnd data (innerLoop data e).1) := by
        have := h.symm
        exact ⟨(List.cons.injEq _ _ _ _ ▸ this).1, (List.cons.injEq _ _ _ _ ▸ this).2⟩
      obtain ⟨hr1, hr2⟩ := hr
      subst hr1
      refine ⟨rfl, hg, rfl, by simpa using hr2, ?_⟩
      exact le_trans (innerLoop_gt data e hg) (obsEnd_ge data (innerLoop data e).1)
    · rw [if_neg hg] at h
      exact absurd h (by simp)

theorem scanGo_start_ge (data : List Nat) :
    ∀ (fuel e : Nat) (r : Nat × Nat × List Nat),
    r ∈ scanGo data fuel e → e ≤ r.1 := by
  intro fuel
  induction fuel with
  | zero => intro e r h; simp [scanGo] at h
  | succ f ih =>
    intro e r h
    by_cases hg : e < data.length - 1
    · simp only [scanGo, if_pos hg] at h
      rcases List.mem_cons.mp h with h1 | h1
      · rw [h1]
      · have h2 := ih (obsEnd data (innerLoop data e).1) r h1
        have h3 : e ≤ (innerLoop data e).1 := innerGo_ge data e _ e []
        have h4 := obsEnd_ge data (innerLoop data e).1
        omega
    · simp only [scanGo, if_neg hg] at h
      simp at h

theorem outerGo_eq (parse : ParseOracle) (data : List Nat) :
    ∀ (fuel e : Nat) (st : IndexState),
    outerGo parse data fuel e st =
      processRecsGo parse data st (scanGo data fuel e) := by
  intro fuel
  induction fuel with
  | zero => intro e st; rfl
  | succ f ih =>
    intro e st
    by_cases hg : e < data.length - 1
    · simp only [outerGo, scanGo, if_pos hg, processRecsGo]
      cases hp : processRec parse data st
          (e, obsEnd data (innerLoop data e).1, (innerLoop data e).2) with
      | none => rfl
      | some st2 => exact ih _ st2
    · simp only [outerGo, scanGo, if_neg hg, processRecsGo]

theorem mem_idxRanges_insertRange (g : String) (r : Nat × Nat) :
    ∀ (idx : List (String × List (Nat × Nat))) (p : Nat × Nat),
    p ∈ idxRanges (insertRange idx g r) ↔ p ∈ idxRanges idx ∨ p = r := by
  intro idx
  induction idx with
  | nil => intro p; simp [insertRange, idxRanges]
  | cons kv t ih =>
    intro p
    obtain ⟨k, rs⟩ := kv
    simp only [insertRange]
    by_cases h1 : g = k
    · rw [if_pos h1]
      simp only [idxRanges, List.flatMap_cons, List.mem_append,
        List.mem_singleton]
      tauto
    · rw [if_neg h1]
      by_cases h2 : g < k
      · rw [if_pos h2]
        simp only [idxRanges, List.flatMap_cons, List.mem_append,
          List.mem_singleton]
        tauto
      · rw [if_neg h2]
        simp only [idxRanges, List.flatMap_cons, List.mem_append]
        have h3 := ih p
        simp only [idxRanges] at h3
        rw [h3]
        tauto

theorem processRec_first (parse : ParseOracle) (data : List Nat)
    (idx0 : List (String × List (Nat × Nat))) (mn mx : Nat)
    (s e2 : Nat) (d : List Nat) (hs : s ≠ 0) :
    processRec parse data ⟨0, idx0, mn, mx⟩ (s, e2, d) =
      processRec parse data ⟨d.length + 1, idx0, mn, mx⟩ (s, e2, d) := by
  cases hp : parse (sliceRange data s e2) d with
  | none => simp [processRec, hp, hs]
  | some pr =>
    cases pr with
    | none => simp [processRec, hp, hs]
    | some v0 =>
      obtain ⟨gh, ts⟩ := v0
      simp [processRec, hp, hs]

theorem processRecsGo_stable (parse : ParseOracle) (data : List Nat) :
    ∀ (recs : List (Nat × Nat × List Nat)) (st : IndexState),
    st.fc ≠ 0 →
    (∀ r ∈ recs, parse (sliceRange data r.1 r.2.1) r.2.2 ≠ none) →
    ∃ st2, processRecsGo parse data st recs = some st2 ∧ st2.fc = st.fc ∧
      st2.minT ≤ st.minT ∧ st.maxT ≤ st2.maxT ∧
      ∀ p : Nat × Nat, p ∈ idxRanges st2.idx ↔ (p ∈ idxRanges st.idx ∨
        ∃ d, (p.1, p.2, d) ∈ recs ∧ d.length + 1 = st.fc ∧
          ∃ v, parse (sliceRange data p.1 p.2) d = some (some v)) := by
  intro recs
  induction recs with
  | nil =>
    intro st hfc _
    exact ⟨st, rfl, rfl, Nat.le_refl _, Nat.le_refl _, by simp⟩
  | cons r t ih =>
    intro st hfc hnp
    obtain ⟨s, e2, d⟩ := r
    have hnr : parse (sliceRange data s e2) d ≠ none :=
      hnp (s, e2, d) (List.mem_cons_self _ _)
    have hnt : ∀ x ∈ t, parse (sliceRange data x.1 x.2.1) x.2.2 ≠ none :=
      fun x hx => hnp x (List.mem_cons_of_mem _ hx)
    have hhead : ¬(st.fc = 0 ∧ s = 0) := fun h => hfc h.1
    by_cases hmis : d.length + 1 ≠ st.fc
    · have hpr : processRec parse data st (s, e2, d) = some st := by
        simp only [processRec]
        rw [if_neg hhead, if_pos ⟨hfc, hmis⟩]
      obtain ⟨st2, h1, h2, hmn, hmx, h3⟩ := ih st hfc hnt
      refine ⟨st2, ?_, h2, hmn, hmx, ?_⟩
      · simp only [processRecsGo, hpr]
        exact h1
      · intro p
        rw [h3 p]
        constructor
        · rintro (hp | ⟨dd, hdd, hlen, hv⟩)
          · exact Or.inl hp
          · exact Or.inr ⟨dd, List.mem_cons_of_mem _ hdd, hlen, hv⟩
        · rintro (hp | ⟨dd, hdd, hlen, hv⟩)
          · exact Or.inl hp
          · rcases List.mem_cons.mp hdd with heq | hmem
            · have hd : dd = d := congrArg (fun x => x.2.2) heq
              rw [hd] at hlen
              exact absurd hlen hmis
            · exact Or.inr ⟨dd, hmem, hlen, hv⟩
    · push_neg at hmis
      have hnomis : ¬(st.fc ≠ 0 ∧ d.length + 1 ≠ st.fc) := fun h => h.2 hmis
      cases hp : parse (sliceRange data s e2) d with
      | none => exact absurd hp hnr
      | some pr =>
        cases pr with
        | none =>
          have hpr : processRec parse data st (s, e2, d) = some st := by
            simp only [processRec]
            rw [if_neg hhead, if_neg hnomis, hp]
            have : (if st.fc = 0 then d.length + 1 else st.fc) = st.fc :=
              if_neg hfc
            rw [this]
          obtain ⟨st2, h1, h2, hmn, hmx, h3⟩ := ih st hfc hnt
          refine ⟨st2, ?_, h2, hmn, hmx, ?_⟩
          · simp only [processRecsGo, hpr]
            exact h1
          · intro p
            rw [h3 p]
            constructor
            · rintro (hp1 | ⟨dd, hdd, hlen, hv⟩)
              · exact Or.inl hp1
              · exact Or.inr ⟨dd, List.mem_cons_of_mem _ hdd, hlen, hv⟩
            · rintro (hp1 | ⟨dd, hdd, hlen, hv⟩)
              · exact Or.inl hp1
              · rcases List.mem_cons.mp hdd with heq | hmem
                · obtain ⟨v, hv2⟩ := hv
                  have h1p : p.1 = s := congrArg (fun x => x.1) heq
                  have h2p : p.2 = e2 := congrArg (fun x => x.2.1) heq
                  have hd : dd = d := congrArg (fun x => x.2.2) heq
                  rw [h1p, h2p, hd] at hv2
                  rw [hv2] at hp
                  exact absurd (Option.some.injEq _ _ ▸ hp) (by simp)
                · exact Or.inr ⟨dd, hmem, hlen, hv⟩
        | some v0 =>
          obtain ⟨gh, ts⟩ := v0
          have hpr : processRec parse data st (s, e2, d) =
              some { fc := st.fc, idx := insertRange st.idx gh (s, e2),
                     minT := min st.minT ts, maxT := max st.maxT ts } := by
            simp only [processRec]
            rw [if_neg hhead, if_neg hnomis, hp]
            have : (if st.fc = 0 then d.length + 1 else st.fc) = st.fc :=
              if_neg hfc
            rw [this]
          obtain ⟨st2, h1, h2, hmn, hmx, h3⟩ := ih
            { fc := st.fc, idx := insertRange st.idx gh (s, e2),
              minT := min st.minT ts, maxT := max st.maxT ts } hfc hnt
          refine ⟨st2, ?_, h2, ?_, ?_, ?_⟩
          · simp only [processRecsGo, hpr]
            exact h1
          · exact le_trans hmn (min_le_left _ _)
          · exact le_trans (le_max_left _ _) hmx
          · intro p
            rw [h3 p]
            rw [mem_idxRanges_insertRange gh (s, e2) st.idx p]
            constructor
            · rintro ((hp1 | hpe) | ⟨dd, hdd, hlen, hv⟩)
              · exact Or.inl hp1
              · refine Or.inr ⟨d, ?_, hmis, ⟨(gh, ts), ?_⟩⟩
                · rw [hpe]
                  exact List.mem_cons_self _ _
                · rw [hpe]
                  exact hp
              · exact Or.inr ⟨dd, List.mem_cons_of_mem _ hdd, hlen, hv⟩
            · rintro (hp1 | ⟨dd, hdd, hlen, hv⟩)
              · exact Or.inl (Or.inl hp1)
              · rcases List.mem_cons.mp hdd with heq | hmem
                · have h1p : p.1 = s := congrArg (fun x => x.1) heq
                  have h2p : p.2 = e2 := congrArg (fun x => x.2.1) heq
                  refine Or.inl (Or.inr ?_)
                  exact Prod.ext h1p h2p
                · exact Or.inr ⟨dd, hmem, hlen, hv⟩

/-- C5: for every raw payload whose scan yields a first record at offset 0
followed by at least one more record, index_block excludes the offset-0
record (the header) from indexing and from schema-width establishment:
the first subsequent record's field count (delimiter count + 1) becomes
the expected width, the indexed ranges are exactly the later records with
that same field count whose metadata parses, and records with a differing
field count are skipped while indexing still completes. -/
theorem c5_index_block_header_and_width (parse : ParseOracle)
    (data : List Nat) (e0 : Nat) (d0 : List Nat) (s1 e1 : Nat)
    (d1 : List Nat) (rest : List (Nat × Nat × List Nat))
    (hscan : scanRecords data = (0, e0, d0) :: (s1, e1, d1) :: rest)
    (hnp : ∀ r ∈ scanRecords data,
      parse (sliceRange data r.1 r.2.1) r.2.2 ≠ none) :
    ∃ idx mn mx, indexBlock parse data = some (idx, (mn, mx)) ∧
      (∀ p ∈ idxRanges idx, p.1 ≠ 0) ∧
      (∀ p : Nat × Nat, p ∈ idxRanges idx ↔
        ∃ d, (p.1, p.2, d) ∈ (s1, e1, d1) :: rest ∧ d.length = d1.length ∧
          ∃ v, parse (sliceRange data p.1 p.2) d = some (some v)) := by
  have hscan2 : scanGo data (data.length + 1) 0 =
      (0, e0, d0) :: (s1, e1, d1) :: rest := hscan
  obtain ⟨-, hg0, -, htail, he0ge⟩ :=
    scanGo_cons data (data.length + 1) 0 _ _ hscan2
  have htail2 : scanGo data data.length e0 = (s1, e1, d1) :: rest := by
    simpa using htail.symm
  obtain ⟨hs1eq, -, -, htail3, he1ge⟩ :=
    scanGo_cons data data.length e0 _ _ htail2
  have hs1 : s1 = e0 := hs1eq
  have he0pos : 0 + 1 ≤ e0 := he0ge
  have hs1ne : s1 ≠ 0 := by omega
  have he1e0 : e0 + 1 ≤ e1 := he1ge
  have hlenpos : ¬(data.length = 0) := by omega
  have htail4 : rest = scanGo data (data.length - 1) e1 := by
    simpa using htail3
  have hreststart : ∀ r ∈ rest, e1 ≤ r.1 := by
    intro r hr
    rw [htail4] at hr
    exact scanGo_start_ge data _ _ r hr
  have hnp2 : ∀ r ∈ (s1, e1, d1) :: rest,
      parse (sliceRange data r.1 r.2.1) r.2.2 ≠ none := by
    intro r hr
    apply hnp
    rw [hscan]
    exact List.mem_cons_of_mem _ hr
  obtain ⟨st2, hrun, hfc2, hmn, hmx, hchar⟩ :=
    processRecsGo_stable parse data ((s1, e1, d1) :: rest)
      ⟨d1.length + 1, [], u64Max, 0⟩ (by simp) hnp2
  refine ⟨st2.idx, st2.minT, st2.maxT, ?_, ?_, ?_⟩
  · unfold indexBlock
    rw [if_neg hlenpos, outerGo_eq, hscan2]
    have hstep0 : processRec parse data ⟨0, [], u64Max, 0⟩ (0, e0, d0) =
        some ⟨0, [], u64Max, 0⟩ := by
      simp [processRec]
    simp only [processRecsGo, hstep0]
    rw [processRec_first parse data [] u64Max 0 s1 e1 d1 hs1ne]
    simp only [processRecsGo] at hrun
    rw [hrun]
    rfl
  · intro p hp
    rcases (hchar p).mp hp with h1 | ⟨d, hd, hlen, hv⟩
    · simp [idxRanges] at h1
    · rcases List.mem_cons.mp hd with heq | hmem
      · have hps : p.1 = s1 := congrArg (fun x => x.1) heq
        omega
      · have hp1 : e1 ≤ p.1 := hreststart (p.1, p.2, d) hmem
        omega
  · intro p
    rw [hchar p]
    constructor
    · rintro (h1 | ⟨d, hd, hlen, hv⟩)
      · simp [idxRanges] at h1
      · have hlen2 : d.length + 1 = d1.length + 1 := hlen
        exact ⟨d, hd, by omega, hv⟩
    · rintro ⟨d, hd, hlen, hv⟩
      refine Or.inr ⟨d, hd, ?_, hv⟩
      show d.length + 1 = d1.length + 1
      omega

/-- C5 witness: the two-record payload "h\nr\n" (bytes 104 10 114 10): the
header record (0,2) is excluded, the width is established by record (2,4)
with zero delimiters, and with an always-Err parser no range is indexed
while indexing still returns Ok. -/
theorem c5_index_block_header_and_width_witness :
    ∃ idx mn mx,
      indexBlock (fun _ _ => some (none : Option (String × Nat)))
        [104, 10, 114, 10] = some (idx, (mn, mx)) ∧
      (∀ p ∈ idxRanges idx, p.1 ≠ 0) ∧
      (∀ p : Nat × Nat, p ∈ idxRanges idx ↔
        ∃ d, (p.1, p.2, d) ∈ [((2 : Nat), (4 : Nat), ([] : List Nat))] ∧
          d.length = ([] : List Nat).length ∧
          ∃ v, (fun (_ _ : List Nat) => some (none : Option (String × Nat)))
            (sliceRange [104, 10, 114, 10] p.1 p.2) d = some (some v)) :=
  c5_index_block_header_and_width (fun _ _ => some none) [104, 10, 114, 10]
    2 [] 2 4 [] [] (by rfl) (by decide)

theorem processRec_cases (parse : ParseOracle) (data : List Nat)
    (st : IndexState) (r : Nat × Nat × List Nat) (st2 : IndexState)
    (h : processRec parse data st r = some st2) :
    (st2.idx = st.idx ∧ st2.minT = st.minT ∧ st2.maxT = st.maxT) ∨
    ∃ g ts, st2.idx = insertRange st.idx g (r.1, r.2.1) ∧
      st2.minT = min st.minT ts ∧ st2.maxT = max st.maxT ts := by
  obtain ⟨s, e2, d⟩ := r
  simp only [processRec] at h
  split at h
  · injection h with h2
    subst h2
    exact Or.inl ⟨rfl, rfl, rfl⟩
  · split at h
    · injection h with h2
      subst h2
      exact Or.inl ⟨rfl, rfl, rfl⟩
    · split at h
      · exact absurd h (by simp)
      · injection h with h2
        subst h2
        exact Or.inl ⟨rfl, rfl, rfl⟩
      · rename_i gh ts heq
        injection h with h2
        subst h2
        exact Or.inr ⟨gh, ts, rfl, rfl, rfl⟩

theorem processRecsGo_empty (parse : ParseOracle) (data : List Nat) :
    ∀ (recs : List (Nat × Nat × List Nat)) (st st2 : IndexState),
    processRecsGo parse data st recs = some st2 →
    idxRanges st2.idx = [] →
    idxRanges st.idx = [] ∧ st2.minT = st.minT ∧ st2.maxT = st.maxT := by
  intro recs
  induction recs with
  | nil =>
    intro st st2 h hemp
    injection h with h2
    subst h2
    exact ⟨hemp, rfl, rfl⟩
  | cons r t ih =>
    intro st st2 h hemp
    simp only [processRecsGo] at h
    cases hp : processRec parse data st r with
    | none => rw [hp] at h; exact absurd h (by simp)
    | some st3 =>
      rw [hp] at h
      obtain ⟨hi, hmn, hmx⟩ := ih st3 st2 h hemp
      rcases processRec_cases parse data st r st3 hp with
        ⟨h1, h2, h3⟩ | ⟨g, ts, h1, h2, h3⟩
      · rw [h1] at hi
        exact ⟨hi, by rw [hmn, h2], by rw [hmx, h3]⟩
      · exfalso
        have hm : (r.1, r.2.1) ∈ idxRanges st3.idx := by
          rw [h1]
          exact (mem_idxRanges_insertRange g (r.1, r.2.1) st.idx _).mpr
            (Or.inr rfl)
        rw [hi] at hm
        simp at hm

theorem wbGo_empty_ranges (data : List Nat) :
    ∀ (idx : List (String × List (Nat × Nat))) (cur : Nat),
    idxRanges idx = [] →
    ∃ gs ss es, wbGo data cur idx = some ([], gs, ss, es, cur) := by
  intro idx
  induction idx with
  | nil => intro cur _; exact ⟨[], [], [], rfl⟩
  | cons e t ih =>
    intro cur hemp
    obtain ⟨g, rs⟩ := e
    simp only [idxRanges, List.flatMap_cons, List.append_eq_nil] at hemp
    obtain ⟨hrs, ht⟩ := hemp
    subst hrs
    obtain ⟨gs, ss, es, hw⟩ := ih cur ht
    refine ⟨g :: gs, cur % 2 ^ 32 :: ss, cur % 2 ^ 32 :: es, ?_⟩
    simp [wbGo, writeRangesGo, hw]

/-- C10: whenever index_block accepts no record at all (header-only
payloads, or payloads where every record fails to parse or is
width-skipped), the timestamp pair it stores is Some((u64::MAX, u64::MIN)),
and a subsequent write_block persists a metadata time range whose start
timestamp strictly exceeds its end timestamp. -/
theorem c10_empty_index_timestamps (parse : ParseOracle) (data : List Nat)
    (idx : List (String × List (Nat × Nat))) (mn mx : Nat)
    (hib : indexBlock parse data = some (idx, (mn, mx)))
    (hemp : idxRanges idx = []) :
    mn = u64Max ∧ mx = 0 ∧
    ∀ op : BlockOperation, op.index = some idx →
      op.timestamps = some (mn, mx) →
      ∃ bytes meta bi, writeBlockM op = some (bytes, meta) ∧
        meta.index = some bi ∧ bi.startTimestamp = u64Max ∧
        bi.endTimestamp = 0 ∧ bi.endTimestamp < bi.startTimestamp := by
  unfold indexBlock at hib
  by_cases hlen : data.length = 0
  · rw [if_pos hlen] at hib
    exact absurd hib (by simp)
  · rw [if_neg hlen] at hib
    cases ho : outerGo parse data (data.length + 1) 0
        ⟨0, [], u64Max, 0⟩ with
    | none => rw [ho] at hib; exact absurd hib (by simp)
    | some st2 =>
      rw [ho] at hib
      simp only [Option.map_some'] at hib
      injection hib with hib2
      have hidx : st2.idx = idx := congrArg Prod.fst hib2
      have hmn : st2.minT = mn := congrArg (fun x => x.2.1) hib2
      have hmx : st2.maxT = mx := congrArg (fun x => x.2.2) hib2
      rw [outerGo_eq] at ho
      have hemp2 : idxRanges st2.idx = [] := by rw [hidx]; exact hemp
      obtain ⟨-, hmn2, hmx2⟩ :=
        processRecsGo_empty parse data _ _ _ ho hemp2
      have hmnv : mn = u64Max := by rw [← hmn]; exact hmn2
      have hmxv : mx = 0 := by rw [← hmx]; exact hmx2
      refine ⟨hmnv, hmxv, ?_⟩
      intro op hoi hot
      obtain ⟨gs, ss, es, hw⟩ := wbGo_empty_ranges op.data idx 0 hemp
      refine ⟨[],
        { blockId := op.blockId, length := 0,
          index := some { geohashes := gs, startIndices := ss,
                          endIndices := es, startTimestamp := mn,
                          endTimestamp := mx } },
        { geohashes := gs, startIndices := ss, endIndices := es,
          startTimestamp := mn, endTimestamp := mx },
        ?_, rfl, ?_, ?_, ?_⟩
      · simp [writeBlockM, hoi, hot, hw]
      · exact hmnv
      · exact hmxv
      · show mx < mn
        rw [hmnv, hmxv]
        unfold u64Max
        norm_num

/-- C10 witness: the header-only payload "h\n" (bytes 104 10) with an
always-Err parser accepts nothing; index_block yields the inverted pair
(u64::MAX, u64::MIN) and write_block persists start > end. -/
theorem c10_empty_index_timestamps_witness :
    ∃ bytes meta bi,
      writeBlockM ⟨1, [104, 10], some (u64Max, 0), some []⟩ =
        some (bytes, meta) ∧
      meta.index = some bi ∧ bi.startTimestamp = u64Max ∧
      bi.endTimestamp = 0 ∧ bi.endTimestamp < bi.startTimestamp :=
  (c10_empty_index_timestamps (fun _ _ => some none) [104, 10] [] u64Max 0
    (by rfl) rfl).2.2 ⟨1, [104, 10], some (u64Max, 0), some []⟩ rfl rfl
